import Mathlib

/-!
Shallow embedding of `src/images/ubuntu/scripts/helpers/dotnet-install.py`.

The embedded core covers: `parse_version`, the tuple ordering on `Version`,
`version_to_string`, `normalized_version_for_nuget`, `is_version_in_nuget`,
`resolve_tag`, `find_closest_version_tag`, `filter_and_sort_tags`, and the
tag-resolution core of `install_dotnet` (the cross-catalog reconciler).

Python exceptions are modelled with `Option`/explicit result types: a Python
function that can raise returns `none` (or an `err` constructor) on the inputs
where the original raises.  Strings are modelled as Lean `String` (a wrapper
around `List Char`); all internal work happens on `List Char`.
-/

namespace DotnetInstall

/-! ### Character and numeral utilities -/

/-- Kind of characters accepted by the regex class `[\d.]`. -/
def isDigitOrDot (c : Char) : Bool := c.isDigit || c = '.'

/-- Numeric value of a decimal digit character. -/
def digitVal (c : Char) : Nat := c.toNat - 48

/-- Decimal digit character for `d < 10` (models Python's `str` on one digit). -/
def decDigit (d : Nat) : Char := Char.ofNat (48 + d)

/-- Models Python `int()` applied to the digit-only strings captured by the
version regexes: succeeds exactly on nonempty all-digit strings. -/
def parseNatDigits (l : List Char) : Option Nat :=
  if l ≠ [] ∧ l.all Char.isDigit then
    some (l.foldl (fun a c => 10 * a + digitVal c) 0)
  else none

/-- Decimal rendering of a natural number, with structural fuel so that the
kernel can evaluate it (models Python `str(n)`). -/
def toDecimalAux : Nat → Nat → List Char
  | 0, _ => []
  | f + 1, n => if n < 10 then [decDigit n] else toDecimalAux f (n / 10) ++ [decDigit (n % 10)]

/-- Decimal rendering of a natural number (models Python `str(n)`). -/
def toDecimal (n : Nat) : List Char := toDecimalAux (n + 1) n

/-- String-level decimal rendering. -/
def natStr (n : Nat) : String := ⟨toDecimal n⟩

/-- Split a character list on every occurrence of `c`, keeping empty pieces,
exactly like Python `str.split(c)`. -/
def splitOnChar (c : Char) : List Char → List (List Char)
  | [] => [[]]
  | x :: xs =>
    if x = c then [] :: splitOnChar c xs
    else
      match splitOnChar c xs with
      | h :: t => (x :: h) :: t
      | [] => [[x]]

/-- Python `str.partition("-")` restricted to the two components the source
uses: the part before the first `-` and the part after it (empty if no `-`). -/
def splitAtFirstDash (l : List Char) : List Char × List Char :=
  (l.takeWhile (· ≠ '-'), (l.dropWhile (· ≠ '-')).tail)

/-- Python `".".join` on character lists. -/
def joinDots : List (List Char) → List Char
  | [] => []
  | [x] => x
  | x :: y :: t => x ++ '.' :: joinDots (y :: t)

/-- Python `".".join` at the `String` level. -/
def dotJoinStr : List String → String
  | [] => ""
  | [x] => x
  | x :: y :: t => x ++ "." ++ dotJoinStr (y :: t)

/-! ### The `Version` value and `parse_version` -/

/-- The `Version` NamedTuple of the source: six fields, compared as a tuple. -/
structure Version where
  major : Nat
  minor : Nat
  patch : Nat
  stage_priority : Int
  stage_number : Nat
  build : List Nat
deriving DecidableEq, Repr

/-- The regex alternation `(alpha|preview|rc|rtm)` applied at the start of the
suffix; returns the stage's priority from `stage_priority_map` and the rest of
the suffix after the stage word. -/
def stageWord? : List Char → Option (Int × List Char)
  | 'a' :: 'l' :: 'p' :: 'h' :: 'a' :: rest => some (0, rest)
  | 'p' :: 'r' :: 'e' :: 'v' :: 'i' :: 'e' :: 'w' :: rest => some (1, rest)
  | 'r' :: 'c' :: rest => some (2, rest)
  | 'r' :: 't' :: 'm' :: rest => some (3, rest)
  | _ => none

/-- Parse each dot-separated component of a captured build group with `int()`;
`none` models the `ValueError` raised on an empty component. -/
def parseNatList : List (List Char) → Option (List Nat)
  | [] => some []
  | x :: xs =>
    match parseNatDigits x, parseNatList xs with
    | some n, some ns => some (n :: ns)
    | _, _ => none

/-- The suffix handling of `parse_version`: try the full pattern
`(alpha|preview|rc|rtm)\.(\d+)\.([\d.]+)`, then the short pattern
`(alpha|preview|rc|rtm)\.([\d.]+)`, else fall back to the unknown stage
(priority `-1`).  `none` models the `ValueError` raised by `int("")` when a
captured group has an empty dot-separated component. -/
def parseSuffix (suffix : List Char) : Option (Int × Nat × List Nat) :=
  match stageWord? suffix with
  | none => some (-1, 0, [])
  | some (pr, rest) =>
    match rest with
    | c :: rest2 =>
      if c = '.' then
        -- full pattern: `\d+` then `\.` then `[\d.]+` (greedy, unanchored at the end)
        if rest2.takeWhile Char.isDigit ≠ [] ∧
            (rest2.dropWhile Char.isDigit).head? = some '.' ∧
            ((rest2.dropWhile Char.isDigit).tail.takeWhile isDigitOrDot) ≠ [] then
          match parseNatDigits (rest2.takeWhile Char.isDigit),
              parseNatList (splitOnChar '.'
                ((rest2.dropWhile Char.isDigit).tail.takeWhile isDigitOrDot)) with
          | some sn, some bs => some (pr, sn, bs)
          | _, _ => none
        else
          -- short pattern: `[\d.]+` right after the stage word and dot
          if rest2.takeWhile isDigitOrDot ≠ [] then
            match parseNatList (splitOnChar '.' (rest2.takeWhile isDigitOrDot)) with
            | some bs => some (pr, 0, bs)
            | none => none
          else some (-1, 0, [])
      else some (-1, 0, [])
    | [] => some (-1, 0, [])

/-- `parse_version`: strip leading `v`s, split base from suffix at the first
`-`, parse the first three dot-separated base components with `int()`, then
classify the suffix.  `none` models any raised exception. -/
def parse_version (s : String) : Option Version :=
  match splitOnChar '.' (splitAtFirstDash (s.data.dropWhile (· = 'v'))).1 with
  | p0 :: p1 :: p2 :: _ =>
    match parseNatDigits p0, parseNatDigits p1, parseNatDigits p2 with
    | some major, some minor, some patch =>
      if (splitAtFirstDash (s.data.dropWhile (· = 'v'))).2 = [] then
        some ⟨major, minor, patch, 4, 0, []⟩
      else
        match parseSuffix (splitAtFirstDash (s.data.dropWhile (· = 'v'))).2 with
        | some (pr, sn, b) => some ⟨major, minor, patch, pr, sn, b⟩
        | none => none
    | _, _, _ => none
  | _ => none

/-! ### Rendering and normalization -/

/-- The stage-name dictionary `{0: "alpha", 1: "preview", 2: "rc", 3: "rtm"}`
used by `version_to_string` and `normalized_version_for_nuget`; `none` models
the `KeyError` raised when `stage_priority` is not a key (e.g. `-1`). -/
def stageChars? (p : Int) : Option (List Char) :=
  if p = 0 then some ['a', 'l', 'p', 'h', 'a']
  else if p = 1 then some ['p', 'r', 'e', 'v', 'i', 'e', 'w']
  else if p = 2 then some ['r', 'c']
  else if p = 3 then some ['r', 't', 'm']
  else none

/-- `version_to_string`: `"{major}.{minor}.{patch}"` plus, when
`stage_priority < 4`, `"-{stage}.{stage_number}.{build joined by '.'}"`.
`none` models the `KeyError` on an unknown `stage_priority`. -/
def version_to_string (v : Version) : Option String :=
  if v.stage_priority < 4 then
    (stageChars? v.stage_priority).map fun w =>
      ⟨toDecimal v.major ++ ('.' :: (toDecimal v.minor ++ ('.' :: (toDecimal v.patch ++
        ('-' :: (w ++ ('.' :: (toDecimal v.stage_number ++
          ('.' :: joinDots (v.build.map toDecimal))))))))))⟩
  else some ⟨toDecimal v.major ++ ('.' :: (toDecimal v.minor ++ ('.' :: toDecimal v.patch)))⟩

/-- `normalized_version_for_nuget`: like `version_to_string` but with the patch
component forced to `0`. -/
def normalized_version_for_nuget (v : Version) : Option String :=
  if v.stage_priority < 4 then
    (stageChars? v.stage_priority).map fun w =>
      ⟨toDecimal v.major ++ ('.' :: (toDecimal v.minor ++ ('.' :: ('0' ::
        ('-' :: (w ++ ('.' :: (toDecimal v.stage_number ++
          ('.' :: joinDots (v.build.map toDecimal))))))))))⟩
  else some ⟨toDecimal v.major ++ ('.' :: (toDecimal v.minor ++ ('.' :: ['0'])))⟩

/-- `is_version_in_nuget`: membership of the normalized key in the NuGet
version set; `none` models the `KeyError` escaping from the normalization. -/
def is_version_in_nuget (nuget_versions : List String) (v : Version) : Option Bool :=
  (normalized_version_for_nuget v).map fun s => nuget_versions.contains s

/-! ### The tuple order on `Version`

A Python `NamedTuple` compares exactly like the tuple of its fields:
lexicographically field by field, with the `build` tuple again compared
lexicographically (a strict prefix sorts lower). -/

/-- Three-way comparison on `Nat`. -/
def natCmp (a b : Nat) : Ordering :=
  if a < b then .lt else if b < a then .gt else .eq

/-- Three-way comparison on `Int`. -/
def intCmp (a b : Int) : Ordering :=
  if a < b then .lt else if b < a then .gt else .eq

/-- Python tuple comparison on `Tuple[int, ...]` values. -/
def listNatCmp : List Nat → List Nat → Ordering
  | [], [] => .eq
  | [], _ :: _ => .lt
  | _ :: _, [] => .gt
  | a :: as, b :: bs => (natCmp a b).then (listNatCmp as bs)

/-- Python tuple comparison of two `Version` NamedTuples. -/
def versionCmp (a b : Version) : Ordering :=
  (natCmp a.major b.major).then <|
    (natCmp a.minor b.minor).then <|
      (natCmp a.patch b.patch).then <|
        (intCmp a.stage_priority b.stage_priority).then <|
          (natCmp a.stage_number b.stage_number).then (listNatCmp a.build b.build)

/-- The strict order `a < b` on versions. -/
def vlt (a b : Version) : Prop := versionCmp a b = .lt

/-- The reflexive order `a <= b` on versions. -/
def vle (a b : Version) : Prop := versionCmp a b ≠ .gt

instance : DecidableRel vlt := fun a b => inferInstanceAs (Decidable (versionCmp a b = .lt))

instance : DecidableRel vle := fun a b => inferInstanceAs (Decidable (versionCmp a b ≠ .gt))

/-! ### Order lemmas for the tuple comparison -/

theorem ordering_then_eq {o p : Ordering} : o.then p = .eq ↔ o = .eq ∧ p = .eq := by
  cases o <;> simp [Ordering.then]

theorem ordering_then_lt {o p : Ordering} : o.then p = .lt ↔ o = .lt ∨ (o = .eq ∧ p = .lt) := by
  cases o <;> simp [Ordering.then]

theorem ordering_then_swap (o p : Ordering) : (o.then p).swap = o.swap.then p.swap := by
  cases o <;> rfl

theorem natCmp_lt_iff {a b : Nat} : natCmp a b = .lt ↔ a < b := by
  unfold natCmp; split
  · simp; omega
  · split <;> simp <;> omega

theorem natCmp_eq_iff {a b : Nat} : natCmp a b = .eq ↔ a = b := by
  unfold natCmp; split
  · simp; omega
  · split <;> simp <;> omega

theorem natCmp_swap (a b : Nat) : (natCmp a b).swap = natCmp b a := by
  rcases lt_trichotomy a b with h | rfl | h
  · simp [natCmp, h, lt_asymm h, Ordering.swap]
  · simp [natCmp, Ordering.swap]
  · simp [natCmp, h, lt_asymm h, Ordering.swap]

theorem intCmp_lt_iff {a b : Int} : intCmp a b = .lt ↔ a < b := by
  unfold intCmp; split
  · simp; omega
  · split <;> simp <;> omega

theorem intCmp_eq_iff {a b : Int} : intCmp a b = .eq ↔ a = b := by
  unfold intCmp; split
  · simp; omega
  · split <;> simp <;> omega

theorem intCmp_swap (a b : Int) : (intCmp a b).swap = intCmp b a := by
  rcases lt_trichotomy a b with h | rfl | h
  · simp [intCmp, h, lt_asymm h, Ordering.swap]
  · simp [intCmp, Ordering.swap]
  · simp [intCmp, h, lt_asymm h, Ordering.swap]

/-- The element-wise sequence order on `build` tuples described by the spec: a
strict prefix sorts lower, otherwise the first differing component decides. -/
def buildLt : List Nat → List Nat → Prop
  | [], [] => False
  | [], _ :: _ => True
  | _ :: _, [] => False
  | a :: as, b :: bs => a < b ∨ (a = b ∧ buildLt as bs)

theorem listNatCmp_eq_iff : ∀ {xs ys : List Nat}, listNatCmp xs ys = .eq ↔ xs = ys
  | [], [] => by simp [listNatCmp]
  | [], _ :: _ => by simp [listNatCmp]
  | _ :: _, [] => by simp [listNatCmp]
  | x :: xs, y :: ys => by
    simp [listNatCmp, ordering_then_eq, natCmp_eq_iff, listNatCmp_eq_iff]

theorem listNatCmp_lt_iff : ∀ {xs ys : List Nat}, listNatCmp xs ys = .lt ↔ buildLt xs ys
  | [], [] => by simp [listNatCmp, buildLt]
  | [], _ :: _ => by simp [listNatCmp, buildLt]
  | _ :: _, [] => by simp [listNatCmp, buildLt]
  | x :: xs, y :: ys => by
    simp [listNatCmp, buildLt, ordering_then_lt, natCmp_lt_iff, natCmp_eq_iff, listNatCmp_lt_iff]

theorem listNatCmp_swap : ∀ (xs ys : List Nat), (listNatCmp xs ys).swap = listNatCmp ys xs
  | [], [] => rfl
  | [], _ :: _ => rfl
  | _ :: _, [] => rfl
  | x :: xs, y :: ys => by
    rw [listNatCmp, listNatCmp, ordering_then_swap, natCmp_swap, listNatCmp_swap]

/-- Transitivity of one lexicographic layer. -/
theorem lex_trans {α : Type} {β : Type} [LinearOrder β] (f : α → β) (s : α → α → Prop)
    (hs : ∀ x y z, s x y → s y z → s x z) :
    ∀ x y z, (f x < f y ∨ (f x = f y ∧ s x y)) → (f y < f z ∨ (f y = f z ∧ s y z)) →
      (f x < f z ∨ (f x = f z ∧ s x z)) := by
  rintro x y z (h | ⟨e, hxy⟩) (h' | ⟨e', hyz⟩)
  · exact .inl (h.trans h')
  · exact .inl (e' ▸ h)
  · exact .inl (e ▸ h')
  · exact .inr ⟨e.trans e', hs _ _ _ hxy hyz⟩

theorem buildLt_trans : ∀ xs ys zs : List Nat, buildLt xs ys → buildLt ys zs → buildLt xs zs
  | [], [], _, h, _ => absurd h (by simp [buildLt])
  | [], _ :: _, [], _, h => absurd h (by simp [buildLt])
  | [], _ :: _, _ :: _, _, _ => by simp [buildLt]
  | _ :: _, [], _, h, _ => absurd h (by simp [buildLt])
  | _ :: _, _ :: _, [], _, h => absurd h (by simp [buildLt])
  | x :: xs, y :: ys, z :: zs, h1, h2 => by
    rw [buildLt] at h1 h2 ⊢
    rcases h1 with h1 | ⟨e1, h1⟩ <;> rcases h2 with h2 | ⟨e2, h2⟩
    · exact .inl (h1.trans h2)
    · exact .inl (e2 ▸ h1)
    · exact .inl (e1 ▸ h2)
    · exact .inr ⟨e1.trans e2, buildLt_trans _ _ _ h1 h2⟩

/-- The lexicographic order over the six fields, stated the way the spec
states it. -/
def specLexLt (a b : Version) : Prop :=
  a.major < b.major ∨ (a.major = b.major ∧
   (a.minor < b.minor ∨ (a.minor = b.minor ∧
    (a.patch < b.patch ∨ (a.patch = b.patch ∧
     (a.stage_priority < b.stage_priority ∨ (a.stage_priority = b.stage_priority ∧
      (a.stage_number < b.stage_number ∨ (a.stage_number = b.stage_number ∧
        buildLt a.build b.build)))))))))

theorem versionCmp_lt_iff {a b : Version} : versionCmp a b = .lt ↔ specLexLt a b := by
  simp [versionCmp, specLexLt, ordering_then_lt, natCmp_lt_iff, natCmp_eq_iff,
    intCmp_lt_iff, intCmp_eq_iff, listNatCmp_lt_iff]

theorem versionCmp_eq_iff {a b : Version} : versionCmp a b = .eq ↔ a = b := by
  obtain ⟨a1, a2, a3, a4, a5, a6⟩ := a
  obtain ⟨b1, b2, b3, b4, b5, b6⟩ := b
  simp [versionCmp, ordering_then_eq, natCmp_eq_iff, intCmp_eq_iff, listNatCmp_eq_iff,
    and_assoc]

theorem versionCmp_swap (a b : Version) : (versionCmp a b).swap = versionCmp b a := by
  rw [versionCmp, versionCmp, ordering_then_swap, ordering_then_swap, ordering_then_swap,
    ordering_then_swap, ordering_then_swap, natCmp_swap, natCmp_swap, natCmp_swap,
    intCmp_swap, natCmp_swap, listNatCmp_swap]

theorem versionCmp_gt_iff {a b : Version} : versionCmp a b = .gt ↔ versionCmp b a = .lt := by
  rw [← versionCmp_swap a b]
  cases versionCmp a b <;> decide

theorem specLexLt_trans : ∀ a b c : Version, specLexLt a b → specLexLt b c → specLexLt a c :=
  lex_trans Version.major _ <| lex_trans Version.minor _ <| lex_trans Version.patch _ <|
    lex_trans Version.stage_priority _ <| lex_trans Version.stage_number _ <|
      fun _ _ _ h1 h2 => buildLt_trans _ _ _ h1 h2

theorem vlt_trans {a b c : Version} (h1 : vlt a b) (h2 : vlt b c) : vlt a c := by
  rw [vlt, versionCmp_lt_iff] at h1 h2 ⊢
  exact specLexLt_trans _ _ _ h1 h2

theorem vlt_asymm {a b : Version} (h : vlt a b) : ¬ vlt b a := by
  intro h'
  rw [vlt, ← versionCmp_gt_iff] at h'
  rw [vlt, h'] at h
  cases h

theorem vlt_irrefl (a : Version) : ¬ vlt a a := by
  intro h
  rw [vlt, versionCmp_eq_iff.mpr rfl] at h
  cases h

theorem vlt_total (a b : Version) : vlt a b ∨ a = b ∨ vlt b a := by
  rcases h : versionCmp a b with _ | _ | _
  · exact .inl h
  · exact .inr (.inl (versionCmp_eq_iff.mp h))
  · exact .inr (.inr (versionCmp_gt_iff.mp h))

theorem vle_iff {a b : Version} : vle a b ↔ vlt a b ∨ a = b := by
  rw [vle, vlt, ← @versionCmp_eq_iff a b]
  cases h : versionCmp a b <;> decide

theorem vle_refl (a : Version) : vle a a := vle_iff.mpr (.inr rfl)

theorem vle_trans {a b c : Version} (h1 : vle a b) (h2 : vle b c) : vle a c := by
  rcases vle_iff.mp h1 with h1 | rfl
  · rcases vle_iff.mp h2 with h2 | rfl
    · exact vle_iff.mpr (.inl (vlt_trans h1 h2))
    · exact vle_iff.mpr (.inl h1)
  · exact h2

theorem vlt_of_vle_of_vlt {a b c : Version} (h1 : vle a b) (h2 : vlt b c) : vlt a c := by
  rcases vle_iff.mp h1 with h1 | rfl
  · exact vlt_trans h1 h2
  · exact h2

theorem vlt_of_vlt_of_vle {a b c : Version} (h1 : vlt a b) (h2 : vle b c) : vlt a c := by
  rcases vle_iff.mp h2 with h2 | rfl
  · exact vlt_trans h1 h2
  · exact h1

theorem not_vlt_iff {a b : Version} : ¬ vlt a b ↔ vle b a := by
  constructor
  · intro h
    rcases vlt_total a b with h' | rfl | h'
    · exact absurd h' h
    · exact vle_refl a
    · exact vle_iff.mpr (.inl h')
  · intro h h'
    rcases vle_iff.mp h with h | rfl
    · exact vlt_asymm h h'
    · exact vlt_irrefl _ h'

instance : IsTotal Version vle :=
  ⟨fun a b => by
    rcases vlt_total a b with h | rfl | h
    · exact .inl (vle_iff.mpr (.inl h))
    · exact .inl (vle_refl a)
    · exact .inr (vle_iff.mpr (.inl h))⟩

instance : IsTrans Version vle := ⟨fun _ _ _ => vle_trans⟩

instance : IsRefl Version vle := ⟨vle_refl⟩

/-! ### Catalog operations -/

/-- Python `str.startswith` on character lists (case-sensitive, literal). -/
def startsWithChars : List Char → List Char → Bool
  | [], _ => true
  | _ :: _, [] => false
  | p :: ps, c :: cs => p = c && startsWithChars ps cs

/-- The `(Version, tag_name)` pairs of the parseable tags, in catalog order
(a tag raising in `parse_version` is skipped by the `try/except`). -/
def tagPairs (tags : List String) : List (Version × String) :=
  tags.filterMap fun t => (parse_version t).map fun v => (v, t)

/-- Lookup in `version_to_tag_map`: the Python dict is written in iteration
order, so a later tag with the same parsed version overwrites an earlier one. -/
def lookupTag (pairs : List (Version × String)) (v : Version) : Option String :=
  ((pairs.filter fun p => decide (p.1 = v)).getLast?).map Prod.snd

/-- Python `list.sort()` on a list of `Version` tuples (ascending). -/
def sortVersions (l : List Version) : List Version := l.insertionSort vle

/-- Python `bisect.bisect_left(l, t)` on a list sorted ascending: the leftmost
insertion point, i.e. the number of elements strictly below the target. -/
def bisectLeft (l : List Version) (t : Version) : Nat :=
  l.countP fun v => decide (vlt v t)

/-- `find_closest_version_tag`: exact parsed-version hit, else the element just
below the insertion point, else the one at it, else failure.  `none` models
both the final `typer.Exit` and an unparseable `input_tag` (the parse of the
caller-supplied string is outside the `try/except` and raises). -/
def find_closest_version_tag (all_tags : List String) (input_tag : String) : Option String :=
  match parse_version (if input_tag.data.head? = some 'v' then input_tag
      else "v" ++ input_tag) with
  | none => none
  | some target =>
    if (tagPairs all_tags).any fun p => decide (p.1 = target) then
      lookupTag (tagPairs all_tags) target
    else
      if 0 < bisectLeft (sortVersions ((tagPairs all_tags).map Prod.fst)) target then
        ((sortVersions ((tagPairs all_tags).map Prod.fst))[bisectLeft
            (sortVersions ((tagPairs all_tags).map Prod.fst)) target - 1]?).bind
          (lookupTag (tagPairs all_tags))
      else
        if bisectLeft (sortVersions ((tagPairs all_tags).map Prod.fst)) target <
            (sortVersions ((tagPairs all_tags).map Prod.fst)).length then
          ((sortVersions ((tagPairs all_tags).map Prod.fst))[bisectLeft
              (sortVersions ((tagPairs all_tags).map Prod.fst)) target]?).bind
            (lookupTag (tagPairs all_tags))
        else none

/-! #### Prefix/wildcard filtering (`filter_and_sort_tags`) -/

/-- Case-insensitive comparison of one literal pattern character with one text
character (the effect of `re.IGNORECASE` on an escaped literal). -/
def lowerEqCI (p c : Char) : Bool := p.toLower = c.toLower

/-- Does the pattern (literal characters, with `*` compiled to `.*`) match a
prefix of the text?  This is the regex `re.escape(pat).replace(r'\*', '.*')`
applied at one position. -/
def globHere : List Char → List Char → Bool
  | [], _ => true
  | '*' :: ps, [] => globHere ps []
  | '*' :: ps, c :: s' => globHere ps (c :: s') || globHere ('*' :: ps) s'
  | _ :: _, [] => false
  | p :: ps, c :: cs => lowerEqCI p c && globHere ps cs
termination_by ps s => (s.length, ps.length)

/-- The regex `v?{pattern}` applied at one position: an optional leading `v`
(case-insensitive) before the compiled pattern. -/
def vOptHere (ps s : List Char) : Bool :=
  globHere ps s ||
    (match s with
     | c :: s' => lowerEqCI 'v' c && globHere ps s'
     | [] => false)

/-- `re.search`: try the pattern at every start position. -/
def vOptSearch (ps : List Char) : List Char → Bool
  | [] => vOptHere ps []
  | c :: s' => vOptHere ps (c :: s') || vOptSearch ps s'

/-- Strip one leading (lowercase) `v` from the filter, as the source does. -/
def normFilterPat (p : String) : List Char :=
  if p.data.head? = some 'v' then p.data.tail else p.data

/-- The filtering stage of `filter_and_sort_tags`: drop empty tag names, then,
when a non-empty filter is given, keep tags matched by the wildcard regex. -/
def tagFilter (tags : List String) (pref : Option String) : List String :=
  let filtered := tags.filter fun t => decide (t ≠ "")
  match pref with
  | none => filtered
  | some p =>
    if p = "" then filtered
    else filtered.filter fun t => vOptSearch (normFilterPat p) t.data

/-- Version of a tag name, used only as a sort key on lists whose members are
all known to parse. -/
def tagKey (t : String) : Version := (parse_version t).getD ⟨0, 0, 0, 0, 0, []⟩

/-- Descending comparison by parsed version, the `sorted(key=..., reverse=True)`
 of the source. -/
def tagDescGe (a b : String) : Prop := vle (tagKey b) (tagKey a)

instance : DecidableRel tagDescGe := fun a b => inferInstanceAs (Decidable (vle (tagKey b) (tagKey a)))

/-- `filter_and_sort_tags`: `sorted(..., key=lambda x: parse_version(...))` has
no `try/except`, so one unparseable tag name among the filtered tags raises
and aborts the whole call (modelled by `none`). -/
def filter_and_sort_tags (tags : List String) (pref : Option String) : Option (List String) :=
  let f := tagFilter tags pref
  if f.all fun t => (parse_version t).isSome then some (f.insertionSort tagDescGe)
  else none

/-- Result of `resolve_tag`: a returned tag name (or Python `None` when no
input was given), the `typer.Exit(1)` failure, or an uncaught `ValueError`
from `parse_version` inside the sort. -/
inductive ResolveResult where
  | ok (tag : Option String)
  | notFound
  | parseError
deriving DecidableEq, Repr

/-- `resolve_tag`: exact name match first, then the highest-version tag among
literal-prefix matches (sorted descending with no exception handling), else
`typer.Exit(1)`. -/
def resolve_tag (tag_input : Option String) (tags : List String) : ResolveResult :=
  match tag_input with
  | none => .ok none
  | some inp =>
    if inp = "" then .ok none
    else
      match tags.filter fun t => decide (t = inp) with
      | m :: _ => .ok (some m)
      | [] =>
        match tags.filter fun t => startsWithChars inp.data t.data with
        | [] => .notFound
        | m :: rest =>
          if (m :: rest).all fun t => (parse_version t).isSome then
            .ok (((m :: rest).insertionSort tagDescGe).head?)
          else .parseError

/-! #### The cross-catalog reconciler (`install_dotnet` resolution core) -/

/-- Outcome of the `--tag` resolution path of `install_dotnet`: a resolved tag
(with the "nearest version" warning flag), the `typer.Exit(1)` failures, or an
uncaught exception (`ValueError` of the requested tag's parse, or the
`KeyError` escaping `normalized_version_for_nuget`). -/
inductive ReconcileResult where
  | resolved (tag : String) (warned : Bool)
  | notFound
  | err
deriving DecidableEq, Repr

/-- The expanding bidirectional scan: for each candidate index (already laid
out as `idx+0, idx-0, idx+1, idx-1, ...`), skip out-of-bounds indices and
majors that differ, and stop at the first candidate whose normalized key is in
the NuGet set.  `none` models the `KeyError` crash, `some none` exhaustion. -/
def searchCands (ibm : List Version) (nuget : List String) (maj : Nat) :
    List Int → Option (Option Version)
  | [] => some none
  | i :: rest =>
    if h : 0 ≤ i ∧ i.toNat < ibm.length then
      let c := ibm.get ⟨i.toNat, h.2⟩
      if c.major ≠ maj then searchCands ibm nuget maj rest
      else
        match is_version_in_nuget nuget c with
        | none => none
        | some true => some (some c)
        | some false => searchCands ibm nuget maj rest
    else searchCands ibm nuget maj rest

/-- The candidate index sequence of the fallback loop:
`for offset in range(len)` and `for direction in [1, -1]`. -/
def candIndices (idx : Nat) (len : Nat) : List Int :=
  (List.range len).flatMap fun off => [(idx : Int) + off, (idx : Int) - off]

/-- The tag-resolution core of `install_dotnet` for a provided `--tag`:
parse the request, keep catalog tags parsing to the same major, sort them,
try the exact hit at the insertion index, then run the bidirectional scan. -/
def reconcile (tag : String) (all_tags : List String) (nuget_set : List String) :
    ReconcileResult :=
  -- `parse_version(tag.lstrip("v"))`: `parse_version` strips leading `v`s
  -- itself, so the extra `lstrip` is a no-op.
  match parse_version tag with
  | none => .err
  | some requested =>
    let pairs := (tagPairs all_tags).filter fun p => decide (p.1.major = requested.major)
    let ibm := sortVersions (pairs.map Prod.fst)
    if ibm.isEmpty then .notFound
    else
      let idx := bisectLeft ibm requested
      let exactHit : Bool :=
        match ibm[idx]? with
        | some v => decide (v = requested)
        | none => false
      let afterExact : Option ReconcileResult :=
        if exactHit then
          match is_version_in_nuget nuget_set requested with
          | none => some .err
          | some true =>
            match lookupTag pairs requested with
            | some name => some (.resolved name false)
            | none => some .err
          | some false => none
        else none
      match afterExact with
      | some r => r
      | none =>
        match searchCands ibm nuget_set requested.major (candIndices idx ibm.length) with
        | none => .err
        | some none => .notFound
        | some (some c) =>
          match lookupTag pairs c with
          | some name => .resolved name true
          | none => .err

/-! ### Spec-side formulations used by the claims -/

/-- The spec's stage-name table indexed by `stagePriority` (0..3). -/
def stageNameTable (p : Int) : String :=
  if p = 0 then "alpha" else if p = 1 then "preview" else if p = 2 then "rc"
  else if p = 3 then "rtm" else ""

/-- The spec's NormalizedKey formula: `"{major}.{minor}.0"` plus, when
`stagePriority < 4`, `"-{stageName}.{stageNumber}.{build joined by '.'}"`. -/
def normalizedKeySpec (v : Version) : String :=
  natStr v.major ++ "." ++ natStr v.minor ++ ".0" ++
    (if v.stage_priority < 4 then
      "-" ++ stageNameTable v.stage_priority ++ "." ++ natStr v.stage_number ++ "." ++
        dotJoinStr (v.build.map natStr)
    else "")

theorem string_data_inj {a b : String} (h : a.data = b.data) : a = b := by
  cases a; cases b; cases h; rfl

theorem data_append (s t : String) : (s ++ t).data = s.data ++ t.data := by
  cases s; cases t; rfl

theorem dotJoinStr_data : ∀ bs : List Nat,
    (dotJoinStr (bs.map natStr)).data = joinDots (bs.map toDecimal)
  | [] => rfl
  | [_] => rfl
  | x :: y :: t => by
    rw [List.map_cons, List.map_cons, dotJoinStr, data_append, data_append,
      ← List.map_cons natStr y t, dotJoinStr_data (y :: t)]
    simp [natStr, joinDots]

end DotnetInstall

open DotnetInstall in
example : parse_version "v9.0.100-preview.7.25351.106" =
    some ⟨9, 0, 100, 1, 7, [25351, 106]⟩ := by decide

open DotnetInstall in
example : parse_version "9.0.100" = some ⟨9, 0, 100, 4, 0, []⟩ := by decide

open DotnetInstall in
example : parse_version "1.2.3-rtm.24503.15" = some ⟨1, 2, 3, 3, 24503, [15]⟩ := by decide

open DotnetInstall in
example : parse_version "1.2.3-beta.1" = some ⟨1, 2, 3, -1, 0, []⟩ := by decide

open DotnetInstall in
example : parse_version "v1.2.3-preview.7." = none := by decide

open DotnetInstall in
example : parse_version "foo" = none := by decide

open DotnetInstall in
example : parse_version "1.2.3-rc.2" = some ⟨1, 2, 3, 2, 0, [2]⟩ := by decide

open DotnetInstall in
example : version_to_string ⟨9, 0, 100, 1, 7, [25351, 106]⟩ =
    some "9.0.100-preview.7.25351.106" := by decide

open DotnetInstall in
example : normalized_version_for_nuget ⟨9, 0, 100, 1, 7, [25351, 106]⟩ =
    some "9.0.0-preview.7.25351.106" := by decide

open DotnetInstall in
example : version_to_string ⟨1, 2, 3, -1, 0, []⟩ = none := by decide

open DotnetInstall in
example : decide (vlt ⟨9, 0, 100, -1, 5, [7]⟩ ⟨9, 0, 100, 0, 0, []⟩) = true := by decide

open DotnetInstall in
example : reconcile "9.0.100" ["9.0.100", "9.0.101", "9.0.102"] ["9.0.0"] =
    .resolved "9.0.100" false := by decide

open DotnetInstall in
example : reconcile "9.0.200" ["v9.0.100"] ["9.0.0"] = .notFound := by decide

open DotnetInstall in
example : filter_and_sort_tags ["foo"] none = none := by decide

open DotnetInstall in
example : filter_and_sort_tags ["v9.0.100", "v8.0.5"] none =
    some ["v9.0.100", "v8.0.5"] := by decide

open DotnetInstall in
example : find_closest_version_tag ["v9.0.100", "v9.0.300"] "9.0.200" =
    some "v9.0.100" := by decide

open DotnetInstall in
example : resolve_tag (some "v9") ["v9.0.100", "v9.0.101"] = .ok (some "v9.0.101") := by decide

/-! ### Claims -/

namespace DotnetInstall

/-- C1, counterexample.  With `buildCatalog = {9.0.100, 9.0.101, 9.0.102}` and
a registry set holding only the normalized key of `9.0.101` (which is
`"9.0.0"`, since normalization forces the patch to 0), requesting `9.0.100`
does not return `9.0.101` with a warning. -/
theorem c1_counterexample :
    parse_version "9.0.101" = some ⟨9, 0, 101, 4, 0, []⟩ ∧
    normalized_version_for_nuget ⟨9, 0, 101, 4, 0, []⟩ = some "9.0.0" ∧
    reconcile "9.0.100" ["9.0.100", "9.0.101", "9.0.102"] ["9.0.0"] ≠
      ReconcileResult.resolved "9.0.101" true := by decide

/-- C1, amended.  Because normalization forces the patch component to 0, the
registry set holding "only the normalized key for 9.0.101" is `{"9.0.0"}`,
which also contains the key of `9.0.100`; so reconciling requested version
`9.0.100` returns the tag for `9.0.100` itself as an exact hit, with no
nearest-version warning. -/
theorem c1_amended :
    reconcile "9.0.100" ["9.0.100", "9.0.101", "9.0.102"] ["9.0.0"] =
      ReconcileResult.resolved "9.0.100" false := by decide

/-- C2.  The fallback scan uses `offset in range(len(ibm_parsed))` starting
from the insertion index, so when the requested version exceeds every
same-major catalog version (insertion index = length), index 0 is never
examined: with catalog `["v9.0.100"]` and registry `{"9.0.0"}`, requesting
`9.0.200` yields `NotFound` even though `v9.0.100` has the requested major and
its normalized key is in the registry set. -/
theorem c2_offbyone_eval :
    reconcile "9.0.200" ["v9.0.100"] ["9.0.0"] = ReconcileResult.notFound ∧
    parse_version "9.0.200" = some ⟨9, 0, 200, 4, 0, []⟩ ∧
    parse_version "v9.0.100" = some ⟨9, 0, 100, 4, 0, []⟩ ∧
    normalized_version_for_nuget ⟨9, 0, 100, 4, 0, []⟩ = some "9.0.0" ∧
    "9.0.0" ∈ ["9.0.0"] := by decide

/-- C5.  For every `Version` with `stage_priority = -1` (the value `parse`
assigns to an unrecognized prerelease suffix), `version_to_string` and
`normalized_version_for_nuget` raise `KeyError` (modelled by `none`) instead
of returning a string, and therefore the registry-membership test
`is_version_in_nuget` also raises on such a candidate instead of skipping
it. -/
theorem c5_unknown_stage_errors : ∀ v : Version, v.stage_priority = -1 →
    version_to_string v = none ∧ normalized_version_for_nuget v = none ∧
    ∀ nuget : List String, is_version_in_nuget nuget v = none := by
  intro v h
  have h4 : v.stage_priority < 4 := by omega
  have hs : stageChars? v.stage_priority = none := by rw [h]; decide
  have h2 : normalized_version_for_nuget v = none := by
    rw [normalized_version_for_nuget, if_pos h4, hs]; rfl
  refine ⟨?_, h2, fun nuget => ?_⟩
  · rw [version_to_string, if_pos h4, hs]; rfl
  · rw [is_version_in_nuget, h2]; rfl

/-- C5 witness: `parse` produces such a version from `"1.2.3-weird"`, and both
renderings plus the membership test error on it. -/
theorem c5_witness :
    parse_version "1.2.3-weird" = some ⟨1, 2, 3, -1, 0, []⟩ ∧
    version_to_string ⟨1, 2, 3, -1, 0, []⟩ = none ∧
    normalized_version_for_nuget ⟨1, 2, 3, -1, 0, []⟩ = none ∧
    is_version_in_nuget ["9.0.0"] ⟨1, 2, 3, -1, 0, []⟩ = none :=
  ⟨by decide, (c5_unknown_stage_errors ⟨1, 2, 3, -1, 0, []⟩ rfl).1,
    (c5_unknown_stage_errors ⟨1, 2, 3, -1, 0, []⟩ rfl).2.1,
    (c5_unknown_stage_errors ⟨1, 2, 3, -1, 0, []⟩ rfl).2.2 ["9.0.0"]⟩

/-- C7.  The tuple comparison on `Version` is a total order on all `Version`
values (in particular all values producible by `parse`, including
`stage_priority = -1` and empty builds): exactly one of `a < b`, `a = b`,
`b < a` holds, `<` is transitive, and `<` coincides with the lexicographic
order on `(major, minor, patch, stagePriority, stageNumber, build)` with
`build` compared element-wise (a strict prefix sorts lower). -/
theorem c7_total_order : ∀ a b c : Version,
    (vlt a b ∨ a = b ∨ vlt b a) ∧
    (vlt a b → ¬ a = b ∧ ¬ vlt b a) ∧
    (a = b → ¬ vlt a b ∧ ¬ vlt b a) ∧
    (vlt a b → vlt b c → vlt a c) ∧
    (vlt a b ↔ specLexLt a b) := by
  intro a b c
  refine ⟨vlt_total a b, ?_, ?_, fun h1 h2 => vlt_trans h1 h2, versionCmp_lt_iff⟩
  · intro h
    exact ⟨fun e => vlt_irrefl b (e ▸ h), vlt_asymm h⟩
  · rintro rfl
    exact ⟨vlt_irrefl a, vlt_irrefl a⟩

/-- C7 witness: the transitivity and lexicographic-coincidence parts applied
at concrete versions. -/
theorem c7_witness :
    vlt ⟨1, 2, 3, 4, 0, []⟩ ⟨1, 2, 3, 4, 0, [5, 1]⟩ ∧
    specLexLt ⟨1, 2, 3, 4, 0, []⟩ ⟨1, 2, 3, 4, 0, [5]⟩ :=
  ⟨(c7_total_order ⟨1, 2, 3, 4, 0, []⟩ ⟨1, 2, 3, 4, 0, [5]⟩ ⟨1, 2, 3, 4, 0, [5, 1]⟩).2.2.2.1
      (by decide) (by decide),
    (c7_total_order ⟨1, 2, 3, 4, 0, []⟩ ⟨1, 2, 3, 4, 0, [5]⟩ ⟨1, 2, 3, 4, 0, [5, 1]⟩).2.2.2.2.mp
      (by decide)⟩

/-- C8.  For versions agreeing on `(major, minor, patch)`, a strictly smaller
`stage_priority` sorts strictly lower regardless of `stage_number` and
`build`; with the priorities assigned by `parse` (unknown = -1, alpha = 0,
preview = 1, rc = 2, rtm = 3, stable = 4) this is exactly
unknown < alpha < preview < rc < rtm < stable. -/
theorem c8_stage_precedence : ∀ a b : Version, a.major = b.major →
    a.minor = b.minor → a.patch = b.patch →
    a.stage_priority < b.stage_priority → vlt a b := by
  intro a b h1 h2 h3 h4
  rw [vlt, versionCmp_lt_iff]
  unfold specLexLt
  exact .inr ⟨h1, .inr ⟨h2, .inr ⟨h3, .inl h4⟩⟩⟩

/-- C8 witness: an unknown-suffix version with large stage number and build
still sorts below an alpha version of the same base. -/
theorem c8_witness : vlt ⟨9, 0, 100, -1, 99, [999]⟩ ⟨9, 0, 100, 0, 0, []⟩ :=
  c8_stage_precedence ⟨9, 0, 100, -1, 99, [999]⟩ ⟨9, 0, 100, 0, 0, []⟩ rfl rfl rfl (by decide)

end DotnetInstall


namespace DotnetInstall

theorem data_dot : ("." : String).data = ['.'] := rfl

theorem data_dash : ("-" : String).data = ['-'] := rfl

theorem data_dotzero : (".0" : String).data = ['.', '0'] := rfl

theorem data_empty : ("" : String).data = [] := rfl

theorem data_alpha : ("alpha" : String).data = ['a', 'l', 'p', 'h', 'a'] := rfl

theorem data_preview : ("preview" : String).data = ['p', 'r', 'e', 'v', 'i', 'e', 'w'] := rfl

theorem data_rc : ("rc" : String).data = ['r', 'c'] := rfl

theorem data_rtm : ("rtm" : String).data = ['r', 't', 'm'] := rfl

/-- C10.  For every `Version` whose stage priority the 0..3 stage-name table
can serve or that is stable (`0 ≤ stagePriority`; the produced priorities are
-1, 0, 1, 2, 3, 4 and the `-1` case errors instead — see the safety claim),
the normalized key is `"{major}.{minor}.0"` followed, exactly when
`stagePriority < 4`, by `"-{stageName}.{stageNumber}.{build joined by '.'}"`. -/
theorem c10_normalized_key : ∀ v : Version, 0 ≤ v.stage_priority →
    normalized_version_for_nuget v = some (normalizedKeySpec v) := by
  intro v h0
  obtain ⟨M, m, pt, p, sn, bs⟩ := v
  simp only at h0
  have hd := dotJoinStr_data bs
  by_cases h4 : p < 4
  · have hp : p = 0 ∨ p = 1 ∨ p = 2 ∨ p = 3 := by omega
    rcases hp with rfl | rfl | rfl | rfl <;>
    · rw [normalized_version_for_nuget, if_pos h4]
      refine congrArg some (string_data_inj ?_)
      simp [normalizedKeySpec, stageChars?, stageNameTable, data_append, natStr, hd,
        data_dot, data_dash, data_dotzero, data_empty, data_alpha, data_preview,
        data_rc, data_rtm, h4]
  · rw [normalized_version_for_nuget, if_neg h4]
    refine congrArg some (string_data_inj ?_)
    simp [normalizedKeySpec, data_append, natStr, data_dot, data_dotzero, data_empty, h4]

/-- C10 witness: the key for `Version(9,0,100,priority=1,stageNumber=7,
build=(25351,106))` is `"9.0.0-preview.7.25351.106"` (patch forced to 0). -/
theorem c10_witness :
    normalized_version_for_nuget ⟨9, 0, 100, 1, 7, [25351, 106]⟩ =
      some (normalizedKeySpec ⟨9, 0, 100, 1, 7, [25351, 106]⟩) ∧
    normalizedKeySpec ⟨9, 0, 100, 1, 7, [25351, 106]⟩ = "9.0.0-preview.7.25351.106" :=
  ⟨c10_normalized_key ⟨9, 0, 100, 1, 7, [25351, 106]⟩ (by decide), by decide⟩

end DotnetInstall

namespace DotnetInstall

/-- C4, counterexample.  `filter_and_sort_tags` has no exception handling
around `parse_version`, so a single unparseable tag name aborts the whole
call instead of being excluded: `"foo"` survives the filter, fails to parse,
and the operation errors. -/
theorem c4_counterexample :
    parse_version "foo" = none ∧ "foo" ∈ tagFilter ["foo"] none ∧
    filter_and_sort_tags ["foo"] none = none := by decide

/-- C4, amended.  `filterAndSort` (and `resolveByPrefix`'s descending sort)
complete without error when every tag in the filtered / prefix-matched
candidate set has a parseable name; a tag whose name fails to parse aborts
the whole operation with a `ParseError` instead of being excluded. -/
theorem c4_amended :
    (∀ tags pref, (∀ t ∈ tagFilter tags pref, (parse_version t).isSome = true) →
      ∃ l, filter_and_sort_tags tags pref = some l ∧ l.Perm (tagFilter tags pref)) ∧
    (∀ tags pref, filter_and_sort_tags tags pref = none →
      ∃ t ∈ tagFilter tags pref, parse_version t = none) ∧
    (∀ inp tags, (∀ t ∈ tags, startsWithChars inp.data t.data = true →
        (parse_version t).isSome = true) →
      resolve_tag (some inp) tags ≠ ResolveResult.parseError) := by
  refine ⟨?_, ?_, ?_⟩
  · intro tags pref h
    have hall : ((tagFilter tags pref).all fun t => (parse_version t).isSome) = true :=
      List.all_eq_true.mpr fun t ht => h t ht
    refine ⟨(tagFilter tags pref).insertionSort tagDescGe, ?_, List.perm_insertionSort _ _⟩
    simp only [filter_and_sort_tags]
    rw [if_pos hall]
  · intro tags pref hnone
    by_contra hc
    push_neg at hc
    have hall : ((tagFilter tags pref).all fun t => (parse_version t).isSome) = true := by
      rw [List.all_eq_true]
      intro t ht
      have := hc t ht
      cases hv : parse_version t
      · exact absurd hv this
      · rfl
    rw [filter_and_sort_tags] at hnone
    simp only [hall] at hnone
    cases hnone
  · intro inp tags h
    simp only [resolve_tag]
    by_cases he : inp = ""
    · simp [he]
    · rw [if_neg he]
      cases hm : tags.filter fun t => decide (t = inp) with
      | cons m ms => simp
      | nil =>
        dsimp only
        cases hp : tags.filter fun t => startsWithChars inp.data t.data with
        | nil => simp
        | cons m ms =>
          dsimp only
          have hall : ((m :: ms).all fun t => (parse_version t).isSome) = true := by
            rw [List.all_eq_true]
            intro t ht
            rw [← hp] at ht
            obtain ⟨htags, hsw⟩ := List.mem_filter.mp ht
            exact h t htags hsw
          rw [if_pos hall]
          simp

/-- C4 witness: a catalog whose filtered tags all parse sorts successfully,
and a prefix resolution over parseable tags does not abort. -/
theorem c4_witness :
    (∃ l, filter_and_sort_tags ["v9.0.100", "v8.0.5", ""] none = some l ∧
      l.Perm (tagFilter ["v9.0.100", "v8.0.5", ""] none)) ∧
    resolve_tag (some "v9") ["v9.0.100", "v9.0.101"] ≠ ResolveResult.parseError :=
  ⟨c4_amended.1 ["v9.0.100", "v8.0.5", ""] none (by decide),
    c4_amended.2.2 "v9" ["v9.0.100", "v9.0.101"] (by decide)⟩

end DotnetInstall

namespace DotnetInstall

/-- Does the base part (after stripping leading `v`s and splitting off the
suffix at the first `-`) parse as three dot-separated numeric components? -/
def baseParses (s : String) : Bool :=
  match splitOnChar '.' (splitAtFirstDash (s.data.dropWhile (· = 'v'))).1 with
  | p0 :: p1 :: p2 :: _ =>
    (parseNatDigits p0).isSome && (parseNatDigits p1).isSome && (parseNatDigits p2).isSome
  | _ => false

/-- Does the prerelease suffix match neither the full nor the short recognized
pattern (the condition of the source's `# Unknown format` branch)? -/
def suffixUnknown (suffix : List Char) : Bool :=
  match stageWord? suffix with
  | none => true
  | some (_, rest) =>
    match rest with
    | c :: rest2 =>
      if c = '.' then
        if rest2.takeWhile Char.isDigit ≠ [] ∧
            (rest2.dropWhile Char.isDigit).head? = some '.' ∧
            ((rest2.dropWhile Char.isDigit).tail.takeWhile isDigitOrDot) ≠ [] then false
        else decide (rest2.takeWhile isDigitOrDot = [])
      else true
    | [] => true

theorem parseSuffix_unknown {l : List Char} (h : suffixUnknown l = true) :
    parseSuffix l = some (-1, 0, []) := by
  unfold suffixUnknown at h
  unfold parseSuffix
  cases hw : stageWord? l with
  | none => rfl
  | some pr_rest =>
    obtain ⟨pr, rest⟩ := pr_rest
    rw [hw] at h
    cases rest with
    | nil => rfl
    | cons c rest2 =>
      dsimp only at h ⊢
      by_cases hc : c = '.'
      · rw [if_pos hc] at h ⊢
        by_cases hfull : rest2.takeWhile Char.isDigit ≠ [] ∧
            (rest2.dropWhile Char.isDigit).head? = some '.' ∧
            ((rest2.dropWhile Char.isDigit).tail.takeWhile isDigitOrDot) ≠ []
        · rw [if_pos hfull] at h
          cases h
        · rw [if_neg hfull] at h ⊢
          rw [decide_eq_true_eq] at h
          rw [if_neg (by simp [h])]
      · rw [if_neg hc] at h ⊢

/-- C3, counterexample.  `"v1.2.3-preview.7."` has a base part that parses as
three numeric components and a suffix matched by the short pattern (so not
the unknown case), yet `parse_version` raises (`int("")` on the trailing
empty build component) instead of succeeding. -/
theorem c3_counterexample :
    baseParses "v1.2.3-preview.7." = true ∧
    suffixUnknown (splitAtFirstDash ("v1.2.3-preview.7.".data.dropWhile (· = 'v'))).2 = false ∧
    parse_version "v1.2.3-preview.7." = none := by decide

/-- C3, amended.  Whenever the base part parses as three dot-separated numeric
components and a prerelease suffix exists but matches neither recognized
pattern, parsing succeeds with `stagePriority = -1`, `stageNumber = 0` and
empty build; but a suffix matched by a pattern whose captured numeric tail
contains an empty dot-separated component still raises. -/
theorem c3_amended : ∀ s : String, baseParses s = true →
    (splitAtFirstDash (s.data.dropWhile (· = 'v'))).2 ≠ [] →
    suffixUnknown (splitAtFirstDash (s.data.dropWhile (· = 'v'))).2 = true →
    ∃ mj mn pt, parse_version s = some ⟨mj, mn, pt, -1, 0, []⟩ := by
  intro s hbase hne hunk
  unfold baseParses at hbase
  unfold parse_version
  cases hsplit : splitOnChar '.' (splitAtFirstDash (s.data.dropWhile (· = 'v'))).1 with
  | nil => rw [hsplit] at hbase; cases hbase
  | cons p0 t0 =>
    cases t0 with
    | nil => rw [hsplit] at hbase; cases hbase
    | cons p1 t1 =>
      cases t1 with
      | nil => rw [hsplit] at hbase; cases hbase
      | cons p2 t2 =>
        rw [hsplit] at hbase
        dsimp only at hbase ⊢
        rw [Bool.and_eq_true, Bool.and_eq_true] at hbase
        obtain ⟨⟨h0, h1⟩, h2⟩ := hbase
        obtain ⟨mj, hmj⟩ := Option.isSome_iff_exists.mp h0
        obtain ⟨mn, hmn⟩ := Option.isSome_iff_exists.mp h1
        obtain ⟨pt, hpt⟩ := Option.isSome_iff_exists.mp h2
        rw [hmj, hmn, hpt]
        dsimp only
        rw [if_neg hne, parseSuffix_unknown hunk]
        exact ⟨mj, mn, pt, rfl⟩

/-- C3 witness: an unknown suffix (`beta`) degrades to priority -1 instead of
failing. -/
theorem c3_witness :
    ∃ mj mn pt, parse_version "v1.2.3-beta.1" = some ⟨mj, mn, pt, -1, 0, []⟩ :=
  c3_amended "v1.2.3-beta.1" (by decide) (by decide) (by decide)

end DotnetInstall

namespace DotnetInstall

theorem decDigit_isDigit {d : Nat} (h : d < 10) : (decDigit d).isDigit = true := by
  interval_cases d <;> decide

theorem digitVal_decDigit {d : Nat} (h : d < 10) : digitVal (decDigit d) = d := by
  interval_cases d <;> decide

theorem isDigit_ne {c : Char} (h : c.isDigit = true) : c ≠ '.' ∧ c ≠ '-' ∧ c ≠ 'v' := by
  refine ⟨?_, ?_, ?_⟩ <;> rintro rfl <;> cases h

theorem toDecimalAux_congr : ∀ f g n : Nat, n < f → n < g → toDecimalAux f n = toDecimalAux g n := by
  intro f
  induction f with
  | zero => intro g n hf _; omega
  | succ f ih =>
    intro g n hf hg
    cases g with
    | zero => omega
    | succ g =>
      rw [toDecimalAux, toDecimalAux]
      by_cases h10 : n < 10
      · rw [if_pos h10, if_pos h10]
      · have hdiv : n / 10 < n := Nat.div_lt_self (by omega) (by omega)
        rw [if_neg h10, if_neg h10, ih g (n / 10) (by omega) (by omega)]

theorem toDecimal_small {n : Nat} (h : n < 10) : toDecimal n = [decDigit n] := by
  rw [toDecimal, toDecimalAux, if_pos h]

theorem toDecimal_step {n : Nat} (h : 10 ≤ n) :
    toDecimal n = toDecimal (n / 10) ++ [decDigit (n % 10)] := by
  have hdiv : n / 10 < n := Nat.div_lt_self (by omega) (by omega)
  rw [toDecimal, toDecimal, toDecimalAux, if_neg (by omega)]
  rw [toDecimalAux_congr n (n / 10 + 1) (n / 10) (by omega) (by omega)]

theorem toDecimal_ne_nil (n : Nat) : toDecimal n ≠ [] := by
  by_cases h : n < 10
  · rw [toDecimal_small h]; simp
  · rw [toDecimal_step (by omega)]; simp

theorem toDecimal_digits : ∀ n : Nat, ∀ c ∈ toDecimal n, c.isDigit = true := by
  intro n
  induction n using Nat.strong_induction_on with
  | _ n ih =>
    by_cases h : n < 10
    · rw [toDecimal_small h]
      intro c hc
      rw [List.mem_singleton] at hc
      exact hc ▸ decDigit_isDigit h
    · have hdiv : n / 10 < n := Nat.div_lt_self (by omega) (by omega)
      rw [toDecimal_step (by omega)]
      intro c hc
      rcases List.mem_append.mp hc with hc | hc
      · exact ih _ hdiv c hc
      · rw [List.mem_singleton] at hc
        exact hc ▸ decDigit_isDigit (by omega)

theorem foldl_val_toDecimal : ∀ n : Nat,
    (toDecimal n).foldl (fun a c => 10 * a + digitVal c) 0 = n := by
  intro n
  induction n using Nat.strong_induction_on with
  | _ n ih =>
    by_cases h : n < 10
    · rw [toDecimal_small h]
      simp [digitVal_decDigit h]
    · have hdiv : n / 10 < n := Nat.div_lt_self (by omega) (by omega)
      rw [toDecimal_step (by omega), List.foldl_append, ih _ hdiv]
      simp [digitVal_decDigit (show n % 10 < 10 by omega)]
      omega

theorem parseNatDigits_toDecimal (n : Nat) : parseNatDigits (toDecimal n) = some n := by
  rw [parseNatDigits,
    if_pos ⟨toDecimal_ne_nil n, List.all_eq_true.mpr fun c hc => toDecimal_digits n c hc⟩,
    foldl_val_toDecimal]

end DotnetInstall

namespace DotnetInstall

theorem takeWhile_all {p : Char → Bool} : ∀ {l : List Char}, (∀ c ∈ l, p c = true) →
    l.takeWhile p = l
  | [], _ => rfl
  | c :: t, h => by
    have ih := takeWhile_all fun x hx => h x (List.mem_cons_of_mem c hx)
    simp [List.takeWhile_cons, h c (List.mem_cons_self c t), ih]

theorem takeWhile_append_stop {p : Char → Bool} {y : Char} (hy : p y = false) :
    ∀ {xs : List Char} (ys : List Char), (∀ c ∈ xs, p c = true) →
      (xs ++ y :: ys).takeWhile p = xs ∧ (xs ++ y :: ys).dropWhile p = y :: ys
  | [], ys, _ => by
    rw [List.nil_append, List.takeWhile_cons, List.dropWhile_cons, hy]
    exact ⟨rfl, rfl⟩
  | x :: xs, ys, h => by
    have hx := h x (List.mem_cons_self x xs)
    have ih := takeWhile_append_stop hy ys (fun c hc => h c (List.mem_cons_of_mem x hc))
    rw [List.cons_append, List.takeWhile_cons, List.dropWhile_cons, hx]
    simp only [if_true]
    exact ⟨by rw [ih.1], ih.2⟩

theorem splitAtFirstDash_append {xs : List Char} (ys : List Char)
    (h : ∀ c ∈ xs, c ≠ '-') : splitAtFirstDash (xs ++ '-' :: ys) = (xs, ys) := by
  have hstop := @takeWhile_append_stop (fun c => decide (c ≠ '-')) '-'
    (by decide) xs ys (fun c hc => by simpa using h c hc)
  rw [splitAtFirstDash, hstop.1, hstop.2]
  rfl

theorem splitAtFirstDash_of_no_dash {xs : List Char} (h : ∀ c ∈ xs, c ≠ '-') :
    splitAtFirstDash xs = (xs, []) := by
  rw [splitAtFirstDash, takeWhile_all (fun c hc => by simpa using h c hc),
    List.dropWhile_eq_nil_iff.mpr (fun c hc => by simpa using h c hc)]
  rfl

theorem splitOnChar_of_not_mem {c : Char} : ∀ {xs : List Char}, (∀ x ∈ xs, x ≠ c) →
    splitOnChar c xs = [xs]
  | [], _ => rfl
  | x :: xs, h => by
    have ih := splitOnChar_of_not_mem fun y hy => h y (List.mem_cons_of_mem x hy)
    rw [splitOnChar, if_neg (h x (List.mem_cons_self x xs)), ih]

theorem splitOnChar_append {c : Char} : ∀ {xs : List Char} (ys : List Char),
    (∀ x ∈ xs, x ≠ c) → splitOnChar c (xs ++ c :: ys) = xs :: splitOnChar c ys
  | [], ys, _ => by rw [List.nil_append, splitOnChar, if_pos rfl]
  | x :: xs, ys, h => by
    have ih := splitOnChar_append ys fun y hy => h y (List.mem_cons_of_mem x hy)
    rw [List.cons_append, splitOnChar, if_neg (h x (List.mem_cons_self x xs)), ih]

theorem splitOnChar_joinDots : ∀ {ls : List (List Char)}, ls ≠ [] →
    (∀ l ∈ ls, ∀ x ∈ l, x ≠ '.') → splitOnChar '.' (joinDots ls) = ls
  | [], h, _ => absurd rfl h
  | [l], _, h => by
    rw [joinDots, splitOnChar_of_not_mem (h l (List.mem_singleton.mpr rfl))]
  | l :: l2 :: t, _, h => by
    have ih := splitOnChar_joinDots (List.cons_ne_nil l2 t)
      fun x hx => h x (List.mem_cons_of_mem l hx)
    rw [joinDots, splitOnChar_append (joinDots (l2 :: t)) (h l (List.mem_cons_self l (l2 :: t))), ih]

theorem parseNatList_map_toDecimal : ∀ bs : List Nat,
    parseNatList (bs.map toDecimal) = some bs
  | [] => rfl
  | b :: bs => by
    rw [List.map_cons, parseNatList, parseNatDigits_toDecimal, parseNatList_map_toDecimal bs]

theorem joinDots_all_digitOrDot : ∀ {ls : List (List Char)},
    (∀ l ∈ ls, ∀ x ∈ l, x.isDigit = true) → ∀ c ∈ joinDots ls, isDigitOrDot c = true
  | [], _, c, hc => absurd hc (List.not_mem_nil c)
  | [l], h, c, hc => by
    rw [joinDots] at hc
    simp [isDigitOrDot, h l (List.mem_singleton.mpr rfl) c hc]
  | l :: l2 :: t, h, c, hc => by
    rw [joinDots] at hc
    rcases List.mem_append.mp hc with hc | hc
    · simp [isDigitOrDot, h l (List.mem_cons_self l (l2 :: t)) c hc]
    · rcases List.mem_cons.mp hc with rfl | hc
      · rfl
      · exact joinDots_all_digitOrDot (fun x hx => h x (List.mem_cons_of_mem l hx)) c hc

theorem joinDots_ne_nil : ∀ {bs : List Nat}, bs ≠ [] → joinDots (bs.map toDecimal) ≠ []
  | [], h => absurd rfl h
  | [b], _ => by rw [List.map_cons, List.map_nil, joinDots]; exact toDecimal_ne_nil b
  | b :: b2 :: t, _ => by
    rw [List.map_cons, List.map_cons, joinDots]
    intro hcontra
    exact toDecimal_ne_nil b (List.append_eq_nil.mp hcontra).1

end DotnetInstall


namespace DotnetInstall

theorem suffix_shape_ne_nil (w : List Char) (r : List Char) : w ++ ('.' :: r) ≠ [] := by
  cases w <;> simp

theorem parse_render_chars (M m pt sn : Nat) (bs : List Nat) (hbs : bs ≠ [])
    (w : List Char) (p : Int)
    (hw : stageWord? (w ++ ('.' :: (toDecimal sn ++ ('.' :: joinDots (bs.map toDecimal))))) =
      some (p, '.' :: (toDecimal sn ++ ('.' :: joinDots (bs.map toDecimal))))) :
    parse_version ⟨toDecimal M ++ ('.' :: (toDecimal m ++ ('.' :: (toDecimal pt ++
      ('-' :: (w ++ ('.' :: (toDecimal sn ++
        ('.' :: joinDots (bs.map toDecimal))))))))))⟩ =
      some ⟨M, m, pt, p, sn, bs⟩ := by
  have hjoin_dd : ∀ c ∈ joinDots (bs.map toDecimal), isDigitOrDot c = true :=
    joinDots_all_digitOrDot fun l hl x hx => by
      obtain ⟨b, _, rfl⟩ := List.mem_map.mp hl
      exact toDecimal_digits b x hx
  have hjoin_ne := joinDots_ne_nil hbs
  have hL : toDecimal M ++ ('.' :: (toDecimal m ++ ('.' :: (toDecimal pt ++
      ('-' :: (w ++ ('.' :: (toDecimal sn ++ ('.' :: joinDots (bs.map toDecimal)))))))))) =
      (toDecimal M ++ ('.' :: (toDecimal m ++ ('.' :: toDecimal pt)))) ++
        ('-' :: (w ++ ('.' :: (toDecimal sn ++ ('.' :: joinDots (bs.map toDecimal)))))) := by
    simp [List.append_assoc]
  have hbase_no_dash : ∀ c ∈ toDecimal M ++ ('.' :: (toDecimal m ++ ('.' :: toDecimal pt))),
      c ≠ '-' := by
    intro c hc
    rcases List.mem_append.mp hc with hc | hc
    · exact (isDigit_ne (toDecimal_digits M c hc)).2.1
    · rcases List.mem_cons.mp hc with rfl | hc
      · decide
      · rcases List.mem_append.mp hc with hc | hc
        · exact (isDigit_ne (toDecimal_digits m c hc)).2.1
        · rcases List.mem_cons.mp hc with rfl | hc
          · decide
          · exact (isDigit_ne (toDecimal_digits pt c hc)).2.1
  have hdrop : (toDecimal M ++ ('.' :: (toDecimal m ++ ('.' :: (toDecimal pt ++
      ('-' :: (w ++ ('.' :: (toDecimal sn ++
        ('.' :: joinDots (bs.map toDecimal))))))))))).dropWhile (· = 'v') =
      toDecimal M ++ ('.' :: (toDecimal m ++ ('.' :: (toDecimal pt ++
        ('-' :: (w ++ ('.' :: (toDecimal sn ++
          ('.' :: joinDots (bs.map toDecimal)))))))))) := by
    cases hM : toDecimal M with
    | nil => exact absurd hM (toDecimal_ne_nil M)
    | cons c t =>
      have hc : c.isDigit = true := toDecimal_digits M c (hM ▸ List.mem_cons_self c t)
      rw [List.cons_append, List.dropWhile_cons,
        if_neg (by simp [(isDigit_ne hc).2.2])]
  have hsplit2 : splitOnChar '.' (toDecimal m ++ ('.' :: toDecimal pt)) =
      toDecimal m :: splitOnChar '.' (toDecimal pt) :=
    splitOnChar_append _ fun c hc => (isDigit_ne (toDecimal_digits m c hc)).1
  have hsplit3 : splitOnChar '.' (toDecimal pt) = [toDecimal pt] :=
    splitOnChar_of_not_mem fun c hc => (isDigit_ne (toDecimal_digits pt c hc)).1
  have hsplit1 : splitOnChar '.'
      (toDecimal M ++ ('.' :: (toDecimal m ++ ('.' :: toDecimal pt)))) =
      [toDecimal M, toDecimal m, toDecimal pt] := by
    rw [splitOnChar_append _ fun c hc => (isDigit_ne (toDecimal_digits M c hc)).1,
      hsplit2, hsplit3]
  have hstop := @takeWhile_append_stop Char.isDigit '.' (by decide) (toDecimal sn)
    (joinDots (bs.map toDecimal)) (toDecimal_digits sn)
  have hsuffix : parseSuffix (w ++ ('.' :: (toDecimal sn ++
      ('.' :: joinDots (bs.map toDecimal))))) = some (p, sn, bs) := by
    rw [parseSuffix, hw]
    dsimp only
    rw [if_pos rfl]
    rw [if_pos ?hfull]
    case hfull =>
      refine ⟨?_, ?_, ?_⟩
      · rw [hstop.1]; exact toDecimal_ne_nil sn
      · rw [hstop.2]; rfl
      · rw [hstop.2]
        dsimp only [List.tail]
        rw [takeWhile_all hjoin_dd]
        exact hjoin_ne
    rw [hstop.1, hstop.2]
    dsimp only [List.tail]
    rw [takeWhile_all hjoin_dd, parseNatDigits_toDecimal,
      splitOnChar_joinDots (by simpa using hbs)
        (fun l hl x hx => by
          obtain ⟨b, _, rfl⟩ := List.mem_map.mp hl
          exact (isDigit_ne (toDecimal_digits b x hx)).1),
      parseNatList_map_toDecimal]
  unfold parse_version
  dsimp only
  rw [hdrop, hL, splitAtFirstDash_append _ hbase_no_dash]
  dsimp only
  rw [hsplit1]
  dsimp only
  rw [parseNatDigits_toDecimal, parseNatDigits_toDecimal, parseNatDigits_toDecimal]
  dsimp only
  rw [if_neg (suffix_shape_ne_nil w _), hsuffix]

end DotnetInstall

namespace DotnetInstall

/-- Nonemptiness-checked all-digits test for one captured component. -/
def allDigits (l : List Char) : Bool := decide (l ≠ []) && l.all Char.isDigit

/-- The spec's "full" pattern shape, read as an exact (anchored) match of the
whole string: base `major.minor.patch` of numeric components, then `-`, then a
stage word, `.`, a numeric stage number, `.`, and a nonempty dotted numeric
build tail. -/
def isFullForm (s : String) : Bool :=
  (match splitOnChar '.' (splitAtFirstDash s.data).1 with
   | [p0, p1, p2] => allDigits p0 && allDigits p1 && allDigits p2
   | _ => false) &&
  (match stageWord? (splitAtFirstDash s.data).2 with
   | some (_, c :: rest2) =>
     decide (c = '.') && allDigits (rest2.takeWhile Char.isDigit) &&
       (match rest2.dropWhile Char.isDigit with
        | d :: tl =>
          decide (d = '.') && decide (tl ≠ []) && tl.all isDigitOrDot &&
            (splitOnChar '.' tl).all allDigits
        | [] => false)
   | _ => false)

theorem c6_case (M m pt sn : Nat) (bs : List Nat) (hb : bs ≠ []) (p : Int) (w : List Char)
    (hrender : version_to_string ⟨M, m, pt, p, sn, bs⟩ =
      some ⟨toDecimal M ++ ('.' :: (toDecimal m ++ ('.' :: (toDecimal pt ++
        ('-' :: (w ++ ('.' :: (toDecimal sn ++
          ('.' :: joinDots (bs.map toDecimal))))))))))⟩)
    (hw : stageWord? (w ++ ('.' :: (toDecimal sn ++ ('.' :: joinDots (bs.map toDecimal))))) =
      some (p, '.' :: (toDecimal sn ++ ('.' :: joinDots (bs.map toDecimal))))) :
    ∃ s, version_to_string ⟨M, m, pt, p, sn, bs⟩ = some s ∧
      parse_version s = some ⟨M, m, pt, p, sn, bs⟩ ∧
      (parse_version s).bind version_to_string = some s := by
  have hpr := parse_render_chars M m pt sn bs hb w p hw
  refine ⟨_, hrender, hpr, ?_⟩
  rw [hpr]
  exact hrender

/-- C6, counterexample.  `"9.0.100-preview.07.25351.106"` matches the full
pattern, but the leading zero of the captured stage number is not preserved by
`int()`: the round trip renders `"9.0.100-preview.7.25351.106"`, a different
string. -/
theorem c6_counterexample :
    isFullForm "9.0.100-preview.07.25351.106" = true ∧
    (parse_version "9.0.100-preview.07.25351.106").bind version_to_string =
      some "9.0.100-preview.7.25351.106" ∧
    ("9.0.100-preview.7.25351.106" : String) ≠ "9.0.100-preview.07.25351.106" := by decide

/-- C6, amended.  `render(parse(s)) == s` holds for every `s` that is the
canonical rendering of a version with a recognized prerelease stage and a
nonempty build — i.e. full-pattern strings without leading `v` and whose
numeric components carry no leading zeros; in particular
`parse("v9.0.100-preview.7.25351.106")` then `render` yields
`"9.0.100-preview.7.25351.106"`. -/
theorem c6_amended :
    (∀ v : Version, 0 ≤ v.stage_priority → v.stage_priority < 4 → v.build ≠ [] →
      ∃ s, version_to_string v = some s ∧ parse_version s = some v ∧
        (parse_version s).bind version_to_string = some s) ∧
    (parse_version "v9.0.100-preview.7.25351.106").bind version_to_string =
      some "9.0.100-preview.7.25351.106" := by
  constructor
  · intro v h0 h4 hb
    obtain ⟨M, m, pt, p, sn, bs⟩ := v
    simp only at h0 h4 hb
    have hp : p = 0 ∨ p = 1 ∨ p = 2 ∨ p = 3 := by omega
    rcases hp with rfl | rfl | rfl | rfl
    · exact c6_case M m pt sn bs hb 0 ['a', 'l', 'p', 'h', 'a'] rfl rfl
    · exact c6_case M m pt sn bs hb 1 ['p', 'r', 'e', 'v', 'i', 'e', 'w'] rfl rfl
    · exact c6_case M m pt sn bs hb 2 ['r', 'c'] rfl rfl
    · exact c6_case M m pt sn bs hb 3 ['r', 't', 'm'] rfl rfl
  · decide

/-- C6 witness: the round trip at `Version(9,0,100,preview,7,(25351,106))`. -/
theorem c6_witness :
    ∃ s, version_to_string ⟨9, 0, 100, 1, 7, [25351, 106]⟩ = some s ∧
      parse_version s = some ⟨9, 0, 100, 1, 7, [25351, 106]⟩ ∧
      (parse_version s).bind version_to_string = some s :=
  c6_amended.1 ⟨9, 0, 100, 1, 7, [25351, 106]⟩ (by decide) (by decide) (by decide)

end DotnetInstall

namespace DotnetInstall

theorem tagPairs_mem {tags : List String} {v : Version} {nm : String}
    (h : (v, nm) ∈ tagPairs tags) : nm ∈ tags ∧ parse_version nm = some v := by
  obtain ⟨t, ht, hf⟩ := List.mem_filterMap.mp h
  obtain ⟨v', hv', heq⟩ := Option.map_eq_some'.mp hf
  cases heq
  exact ⟨ht, hv'⟩

theorem lookupTag_mem {pairs : List (Version × String)} {v : Version}
    (h : v ∈ pairs.map Prod.fst) :
    ∃ nm, lookupTag pairs v = some nm ∧ (v, nm) ∈ pairs := by
  obtain ⟨p, hp, hfst⟩ := List.mem_map.mp h
  have hmem : p ∈ pairs.filter fun q => decide (q.1 = v) :=
    List.mem_filter.mpr ⟨hp, by simp [hfst]⟩
  have hne : (pairs.filter fun q => decide (q.1 = v)) ≠ [] := List.ne_nil_of_mem hmem
  have hqmem := List.getLast_mem hne
  have hq := List.mem_filter.mp hqmem
  rcases hql : (pairs.filter fun q => decide (q.1 = v)).getLast hne with ⟨q1, q2⟩
  rw [hql] at hq
  obtain ⟨hqp, hqv⟩ := hq
  have hq1 : q1 = v := by simpa using hqv
  subst hq1
  refine ⟨q2, ?_, hqp⟩
  rw [lookupTag, List.getLast?_eq_getLast _ hne, hql]
  rfl

theorem countP_sorted_iff {t : Version} : ∀ {l : List Version}, l.Sorted vle →
    ∀ i (h : i < l.length),
      (i < l.countP (fun v => decide (vlt v t)) ↔ vlt (l.get ⟨i, h⟩) t) := by
  intro l
  induction l with
  | nil => intro _ i h; exact absurd h (by simp)
  | cons x xs ih =>
    intro hs i h
    obtain ⟨hx, hxs⟩ := List.sorted_cons.mp hs
    by_cases hvx : vlt x t
    · rw [List.countP_cons_of_pos _ _ (by simpa using hvx)]
      cases i with
      | zero => simpa using hvx
      | succ j =>
        have hj : j < xs.length := by simpa using h
        rw [List.get_cons_succ, Nat.succ_lt_succ_iff]
        exact ih hxs j hj
    · have h0 : xs.countP (fun v => decide (vlt v t)) = 0 := by
        rw [List.countP_eq_zero]
        intro a ha
        simp only [decide_eq_true_eq]
        intro hva
        exact hvx (vlt_of_vle_of_vlt (hx a ha) hva)
      rw [List.countP_cons_of_neg _ _ (by simpa using hvx), h0]
      cases i with
      | zero => simpa using hvx
      | succ j =>
        have hj : j < xs.length := by simpa using h
        rw [List.get_cons_succ]
        constructor
        · omega
        · intro hvj
          exact absurd hvj
            (by simpa using List.countP_eq_zero.mp h0 _ (List.get_mem xs j hj))

theorem parse_version_data_congr {a b : String}
    (h : a.data.dropWhile (· = 'v') = b.data.dropWhile (· = 'v')) :
    parse_version a = parse_version b := by
  rw [parse_version, parse_version, h]

end DotnetInstall

namespace DotnetInstall

/-- C9.  `find_closest_version_tag` with a parseable target: an exact parsed
version is returned directly; otherwise, with the parseable tags sorted
ascending and the insertion index located by bisection, the tag just below the
insertion point is returned when the index is positive (it carries the
greatest version not exceeding the target), else the tag at the insertion
point when one exists (the least version overall, all versions exceeding the
target), else the call fails with `NotFound`. -/
theorem c9_find_closest : ∀ (tags : List String) (input : String) (t : Version),
    parse_version input = some t →
    ((t ∈ (tagPairs tags).map Prod.fst →
        ∃ nm, find_closest_version_tag tags input = some nm ∧ nm ∈ tags ∧
          parse_version nm = some t) ∧
     (t ∉ (tagPairs tags).map Prod.fst →
        (∃ v ∈ (tagPairs tags).map Prod.fst, vlt v t) →
        ∃ nm v', find_closest_version_tag tags input = some nm ∧ nm ∈ tags ∧
          parse_version nm = some v' ∧ vlt v' t ∧
          ∀ v ∈ (tagPairs tags).map Prod.fst, vlt v t → vle v v') ∧
     (t ∉ (tagPairs tags).map Prod.fst →
        (∀ v ∈ (tagPairs tags).map Prod.fst, ¬ vlt v t) →
        (tagPairs tags).map Prod.fst ≠ [] →
        ∃ nm v', find_closest_version_tag tags input = some nm ∧ nm ∈ tags ∧
          parse_version nm = some v' ∧
          ∀ v ∈ (tagPairs tags).map Prod.fst, vle v' v) ∧
     ((tagPairs tags).map Prod.fst = [] →
        find_closest_version_tag tags input = none)) := by
  intro tags input t hp
  have hnorm : parse_version (if input.data.head? = some 'v' then input
      else "v" ++ input) = some t := by
    by_cases hv : input.data.head? = some 'v'
    · rw [if_pos hv]; exact hp
    · rw [if_neg hv]
      have hvd : ("v" : String).data = ['v'] := rfl
      have hd : ("v" ++ input).data.dropWhile (· = 'v') =
          input.data.dropWhile (· = 'v') := by
        rw [data_append, hvd, List.cons_append, List.nil_append, List.dropWhile_cons]
        simp
      rw [parse_version_data_congr hd]
      exact hp
  have hbody : find_closest_version_tag tags input =
      (if (tagPairs tags).any fun p => decide (p.1 = t) then
        lookupTag (tagPairs tags) t
      else
        if 0 < bisectLeft (sortVersions ((tagPairs tags).map Prod.fst)) t then
          ((sortVersions ((tagPairs tags).map Prod.fst))[bisectLeft
              (sortVersions ((tagPairs tags).map Prod.fst)) t - 1]?).bind
            (lookupTag (tagPairs tags))
        else
          if bisectLeft (sortVersions ((tagPairs tags).map Prod.fst)) t <
              (sortVersions ((tagPairs tags).map Prod.fst)).length then
            ((sortVersions ((tagPairs tags).map Prod.fst))[bisectLeft
                (sortVersions ((tagPairs tags).map Prod.fst)) t]?).bind
              (lookupTag (tagPairs tags))
          else none) := by
    rw [find_closest_version_tag, hnorm]
  have hsort : (sortVersions ((tagPairs tags).map Prod.fst)).Sorted vle :=
    List.sorted_insertionSort _ _
  have hperm : (sortVersions ((tagPairs tags).map Prod.fst)).Perm
      ((tagPairs tags).map Prod.fst) := List.perm_insertionSort _ _
  have hklen : bisectLeft (sortVersions ((tagPairs tags).map Prod.fst)) t ≤
      (sortVersions ((tagPairs tags).map Prod.fst)).length := by
    rw [bisectLeft, List.countP_eq_length_filter]
    exact List.length_filter_le _ _
  refine ⟨?_, ?_, ?_, ?_⟩
  · -- exact hit
    intro hmem
    have hany : ((tagPairs tags).any fun p => decide (p.1 = t)) = true := by
      rw [List.any_eq_true]
      obtain ⟨p, hpp, hfst⟩ := List.mem_map.mp hmem
      exact ⟨p, hpp, by simp [hfst]⟩
    obtain ⟨nm, hlk, hpair⟩ := lookupTag_mem hmem
    obtain ⟨hin, hparse⟩ := tagPairs_mem hpair
    refine ⟨nm, ?_, hin, hparse⟩
    rw [hbody, if_pos hany]
    exact hlk
  · -- nearest below
    intro hnot hex
    have hany : ((tagPairs tags).any fun p => decide (p.1 = t)) = false := by
      rw [List.any_eq_false]
      intro p hpp
      simp only [decide_eq_true_eq]
      intro hfst
      exact hnot (List.mem_map.mpr ⟨p, hpp, hfst⟩)
    obtain ⟨v, hvP, hvlt⟩ := hex
    have hkpos : 0 < bisectLeft (sortVersions ((tagPairs tags).map Prod.fst)) t := by
      rw [bisectLeft, List.countP_pos_iff]
      exact ⟨v, hperm.mem_iff.mpr hvP, by simpa using hvlt⟩
    have hidx : bisectLeft (sortVersions ((tagPairs tags).map Prod.fst)) t - 1 <
        (sortVersions ((tagPairs tags).map Prod.fst)).length := by omega
    have he_lt : vlt ((sortVersions ((tagPairs tags).map Prod.fst)).get
        ⟨bisectLeft (sortVersions ((tagPairs tags).map Prod.fst)) t - 1, hidx⟩) t :=
      (countP_sorted_iff hsort _ hidx).mp
        (by have hbk : bisectLeft (sortVersions ((tagPairs tags).map Prod.fst)) t =
              (sortVersions ((tagPairs tags).map Prod.fst)).countP
                fun v => decide (vlt v t) := rfl
            omega)
    have heP : (sortVersions ((tagPairs tags).map Prod.fst)).get
        ⟨bisectLeft (sortVersions ((tagPairs tags).map Prod.fst)) t - 1, hidx⟩ ∈
        (tagPairs tags).map Prod.fst :=
      hperm.mem_iff.mp (List.get_mem _ _ _)
    obtain ⟨nm, hlk, hpair⟩ := lookupTag_mem heP
    obtain ⟨hin, hparse⟩ := tagPairs_mem hpair
    refine ⟨nm, _, ?_, hin, hparse, he_lt, ?_⟩
    · rw [hbody, if_neg (by simp [hany]), if_pos hkpos,
        List.getElem?_eq_getElem hidx]
      exact hlk
    · intro u huP hult
      obtain ⟨j, hjget⟩ := List.mem_iff_get.mp (hperm.mem_iff.mpr huP)
      have hjget2 : (sortVersions ((tagPairs tags).map Prod.fst)).get
          ⟨j.val, j.isLt⟩ = u := hjget
      have hj_lt : j.val < bisectLeft (sortVersions ((tagPairs tags).map Prod.fst)) t :=
        (countP_sorted_iff hsort j.val j.isLt).mpr (by rw [hjget2]; exact hult)
      by_cases hje : j.val = bisectLeft (sortVersions ((tagPairs tags).map Prod.fst)) t - 1
      · have : u = (sortVersions ((tagPairs tags).map Prod.fst)).get
            ⟨bisectLeft (sortVersions ((tagPairs tags).map Prod.fst)) t - 1, hidx⟩ := by
          rw [← hjget2]
          congr 1
          exact Fin.ext hje
        rw [← this]
        exact vle_refl u
      · have hflt : (⟨j.val, j.isLt⟩ : Fin (sortVersions
            ((tagPairs tags).map Prod.fst)).length) <
            ⟨bisectLeft (sortVersions ((tagPairs tags).map Prod.fst)) t - 1, hidx⟩ := by
          rw [Fin.lt_def]
          simp only
          omega
        have hrel := hsort.rel_get_of_lt hflt
        rw [hjget2] at hrel
        exact hrel
  · -- nothing below: least element
    intro hnot hnone hne
    have hany : ((tagPairs tags).any fun p => decide (p.1 = t)) = false := by
      rw [List.any_eq_false]
      intro p hpp
      simp only [decide_eq_true_eq]
      intro hfst
      exact hnot (List.mem_map.mpr ⟨p, hpp, hfst⟩)
    have hk0 : bisectLeft (sortVersions ((tagPairs tags).map Prod.fst)) t = 0 := by
      rw [bisectLeft, List.countP_eq_zero]
      intro a ha
      simp only [decide_eq_true_eq]
      exact hnone a (hperm.mem_iff.mp ha)
    have hlen : 0 < (sortVersions ((tagPairs tags).map Prod.fst)).length := by
      rw [hperm.length_eq]
      exact List.length_pos.mpr hne
    have heP : (sortVersions ((tagPairs tags).map Prod.fst)).get ⟨0, hlen⟩ ∈
        (tagPairs tags).map Prod.fst := hperm.mem_iff.mp (List.get_mem _ _ _)
    obtain ⟨nm, hlk, hpair⟩ := lookupTag_mem heP
    obtain ⟨hin, hparse⟩ := tagPairs_mem hpair
    refine ⟨nm, _, ?_, hin, hparse, ?_⟩
    · rw [hbody, if_neg (by simp [hany]), if_neg (by rw [hk0]; omega)]
      rw [if_pos (by rw [hk0]; exact hlen)]
      have : (sortVersions ((tagPairs tags).map Prod.fst))[bisectLeft
          (sortVersions ((tagPairs tags).map Prod.fst)) t]? =
          some ((sortVersions ((tagPairs tags).map Prod.fst)).get ⟨0, hlen⟩) := by
        rw [hk0, List.getElem?_eq_getElem hlen]
        rfl
      rw [this]
      exact hlk
    · intro u huP
      obtain ⟨j, hjget⟩ := List.mem_iff_get.mp (hperm.mem_iff.mpr huP)
      have hjget2 : (sortVersions ((tagPairs tags).map Prod.fst)).get
          ⟨j.val, j.isLt⟩ = u := hjget
      have hle : (⟨0, hlen⟩ : Fin (sortVersions
          ((tagPairs tags).map Prod.fst)).length) ≤ ⟨j.val, j.isLt⟩ := by
        exact Nat.zero_le _
      have hrel := hsort.rel_get_of_le hle
      rw [hjget2] at hrel
      exact hrel
  · -- no parseable tags
    intro hP
    have hpairs : tagPairs tags = [] := List.map_eq_nil_iff.mp hP
    rw [hbody, hpairs]
    simp [sortVersions, bisectLeft]

/-- C9 witness: requesting `1.2.4` against tags `v1.2.3`, `v1.2.5` returns
`v1.2.3`, the greatest version not exceeding the target. -/
theorem c9_witness :
    ∃ nm v', find_closest_version_tag ["v1.2.3", "v1.2.5"] "1.2.4" = some nm ∧
      nm ∈ ["v1.2.3", "v1.2.5"] ∧ parse_version nm = some v' ∧
      vlt v' ⟨1, 2, 4, 4, 0, []⟩ ∧
      ∀ v ∈ (tagPairs ["v1.2.3", "v1.2.5"]).map Prod.fst,
        vlt v ⟨1, 2, 4, 4, 0, []⟩ → vle v v' :=
  (c9_find_closest ["v1.2.3", "v1.2.5"] "1.2.4" ⟨1, 2, 4, 4, 0, []⟩ (by decide)).2.1
    (by decide) (by decide)

end DotnetInstall
